import Mathlib

set_option maxHeartbeats 1000000

/-!
Verification of the `rust_graphics` triangle rasterizer (`src/main.rs`).

The real-number model: Rust `f64` values are modelled as real numbers `ℝ`
(the arithmetic performed by the program is exact on the inputs of interest),
and the `f64 -> usize` / `f64 -> u8` casts are modelled by truncation toward
zero with saturation, exactly as Rust defines them on finite inputs.
A second model (`FR`) extends the reals with `nan` and the two infinities in
order to capture the IEEE-754 behaviour of the degenerate (zero-length-edge)
case, where the source divides by a zero norm.
-/

namespace RustGraphics

noncomputable section

open Classical

/-- `const WIDTH: usize = 203` -/
def WIDTH : ℕ := 203

/-- `const HEIGHT: usize = 203` -/
def HEIGHT : ℕ := 203

/-- `struct ScreenCoord { x: f64, y: f64 }` with `f64` modelled as `ℝ`. -/
@[ext]
structure ScreenCoord where
  x : ℝ
  y : ℝ

/-- `struct ImageCoord { x: usize, y: usize }` -/
@[ext]
structure ImageCoord where
  x : ℕ
  y : ℕ

/-- One pixel `[u8; 3]`: an RGB triple of bytes. -/
abbrev Pixel := ℕ × ℕ × ℕ

/-- The image buffer `lines: [[[u8; 3]; WIDTH]; HEIGHT]`, addressed as
`lines y x` (row first, as in `image.lines[y][x]`). -/
abbrev Image := ℕ → ℕ → Pixel

/-- The zero-initialized buffer `[[[0, 0, 0]; WIDTH]; HEIGHT]` built in `main`. -/
def zeroImage : Image := fun _ _ => (0, 0, 0)

/-- The in-place store `image.lines[y][x] = p`. -/
def setPx (img : Image) (y x : ℕ) (p : Pixel) : Image :=
  fun y' x' => if y' = y ∧ x' = x then p else img y' x'

/-- Rust's `f64 as usize` on a finite value: truncation toward zero,
saturating below at `0`.  (On the nonnegative inputs this program produces
the truncation is just the floor.) -/
def usizeOfF64 (r : ℝ) : ℕ := (⌊r⌋).toNat

/-- Rust's `f64 as u8` on a finite value: truncation toward zero, saturating
into `[0, 255]`. -/
def u8OfF64 (r : ℝ) : ℕ := (min 255 ⌊r⌋).toNat

/-- `fn screen_to_image_coord`: per axis `((in + 1.0) * (dim - 1) as f64 / 2.0) as usize`. -/
def screen_to_image_coord (s : ScreenCoord) : ImageCoord :=
  { x := usizeOfF64 ((s.x + 1) * ((WIDTH - 1 : ℕ) : ℝ) / 2)
    y := usizeOfF64 ((s.y + 1) * ((HEIGHT - 1 : ℕ) : ℝ) / 2) }

/-- `fn image_to_screen_coord`: per axis `in as f64 * 2.0 / (dim - 1) as f64 - 1.0`. -/
def image_to_screen_coord (i : ImageCoord) : ScreenCoord :=
  { x := (i.x : ℝ) * 2 / ((WIDTH - 1 : ℕ) : ℝ) - 1
    y := (i.y : ℝ) * 2 / ((HEIGHT - 1 : ℕ) : ℝ) - 1 }

/-- `fn get_line_eq(a, b)`: the returned closure
`|u| (u.x - a.x) * n.x + (u.y - a.y) * n.y` with
`t = b - a`, `t_norm = (t.x*t.x + t.y*t.y).sqrt()`,
`n = (-t.y/t_norm, t.x/t_norm)`. -/
def get_line_eq (a b : ScreenCoord) : ScreenCoord → ℝ :=
  let t : ScreenCoord := ⟨b.x - a.x, b.y - a.y⟩
  let t_norm := Real.sqrt (t.x * t.x + t.y * t.y)
  let n : ScreenCoord := ⟨-t.y / t_norm, t.x / t_norm⟩
  fun u => (u.x - a.x) * n.x + (u.y - a.y) * n.y

/-- `let pixel_width = 1.0 / ((HEIGHT * HEIGHT + WIDTH * WIDTH) as f64).sqrt()`
(identical in `draw_half_space` and `draw_triangle`). -/
def pixel_width : ℝ := 1 / Real.sqrt ((HEIGHT * HEIGHT + WIDTH * WIDTH : ℕ) : ℝ)

/-- The value `ab_sign.min(bc_sign).min(ca_sign)` computed by the body of
`draw_triangle` at a screen coordinate `u`. -/
def triangle_sign (a b c : ScreenCoord) (u : ScreenCoord) : ℝ :=
  let ab_sign := get_line_eq a b u
  let bc_sign := get_line_eq b c u
  let ca_sign := get_line_eq c a u
  min (min ab_sign bc_sign) ca_sign

/-- One iteration of the nested loop body of `draw_triangle` at pixel `(x, y)`:

```
if triangle_sign < -pixel_width { lines[y][x] = [255,255,255] }
else if triangle_sign < 0.0 + pixel_width {
  let intensity = 128 + (triangle_sign * 128.0) as u8;
  lines[y][x] = [intensity; 3]
}
```
The `u8` addition is reduced mod `2^8` as in the machine. -/
def drawPixel (a b c : ScreenCoord) (img : Image) (y x : ℕ) : Image :=
  let screen_coord := image_to_screen_coord ⟨x, y⟩
  let s := triangle_sign a b c screen_coord
  if s < -pixel_width then setPx img y x (255, 255, 255)
  else if s < 0 + pixel_width then
    let intensity := (128 + u8OfF64 (s * 128)) % 256
    setPx img y x (intensity, intensity, intensity)
  else img

/-- `fn draw_triangle`: `for y in 0..HEIGHT { for x in 0..WIDTH { ... } }`. -/
def draw_triangle (a b c : ScreenCoord) (img : Image) : Image :=
  (List.range HEIGHT).foldl
    (fun im y => (List.range WIDTH).foldl (fun im2 x => drawPixel a b c im2 y x) im)
    img

/-- The per-pixel result of the loop body as a function of the old pixel value:
what `drawPixel` stores at its own coordinate. -/
def pointValue (a b c : ScreenCoord) (x y : ℕ) (old : Pixel) : Pixel :=
  let s := triangle_sign a b c (image_to_screen_coord ⟨x, y⟩)
  if s < -pixel_width then (255, 255, 255)
  else if s < 0 + pixel_width then
    let intensity := (128 + u8OfF64 (s * 128)) % 256
    (intensity, intensity, intensity)
  else old

/-- The triangle drawn by `main`: `(0.0, -0.5)`, `(0.5, 0.0)`, `(-0.5, 0.5)`. -/
def mainA : ScreenCoord := ⟨0, -(1 / 2)⟩

/-- Second vertex of `main`'s triangle. -/
def mainB : ScreenCoord := ⟨1 / 2, 0⟩

/-- Third vertex of `main`'s triangle. -/
def mainC : ScreenCoord := ⟨-(1 / 2), 1 / 2⟩

/-- First vertex of a triangle that puts pixel `(101, 101)` (screen `(0,0)`)
inside the anti-aliasing band: the edge `bandA -> bandB` has direction
`(3, 4)` (norm `5`) and passes at signed distance `-1/500` from the origin. -/
def bandA : ScreenCoord := ⟨-(4 / 2500), 3 / 2500⟩

/-- Second vertex of the band triangle: `bandA + (3, 4)`. -/
def bandB : ScreenCoord := ⟨7496 / 2500, 10003 / 2500⟩

/-- Third vertex of the band triangle: `bandA + (-1/10, 16/5)`, placed on the
positive side of the other two edges as seen from the origin. -/
def bandC : ScreenCoord := ⟨-(254 / 2500), 8003 / 2500⟩

/-- The header text `format!("P6\n{} {}\n255\n", WIDTH, HEIGHT)`. -/
def headerString : String := "P6\n" ++ toString WIDTH ++ " " ++ toString HEIGHT ++ "\n255\n"

/-- The bytes of the header (all characters are ASCII, so UTF-8 bytes are
just the character codes). -/
def headerBytes : List ℕ := headerString.data.map Char.toNat

/-- The three bytes `stream.write(pixel)` emits for one pixel. -/
def pixelBytes (p : Pixel) : List ℕ := [p.1, p.2.1, p.2.2]

/-- The byte stream `write_ppm` sends to the `BufWriter`: the header bytes,
then for each line (top to bottom) and each pixel (left to right) the three
channel bytes, accumulated in write order. -/
def write_ppm_bytes (img : Image) : List ℕ :=
  (List.range HEIGHT).foldl
    (fun acc y => (List.range WIDTH).foldl (fun acc2 x => acc2 ++ pixelBytes (img y x)) acc)
    headerBytes

/-- The bytes of row `y`: pixels left to right, `R, G, B` each. -/
def rowBytes (img : Image) (y : ℕ) : List ℕ :=
  (List.range WIDTH).foldr (fun x acc2 => pixelBytes (img y x) ++ acc2) []

/-- Row-major body bytes: rows top to bottom. -/
def bodyBytes (img : Image) : List ℕ :=
  (List.range HEIGHT).foldr (fun y acc => rowBytes img y ++ acc) []

/-- Bounds-checked store: `none` exactly when the index is out of bounds. -/
def setPxChecked (img : Image) (y x : ℕ) (p : Pixel) : Option Image :=
  if y < HEIGHT ∧ x < WIDTH then some (setPx img y x p) else none

/-- Bounds-checked load: `none` exactly when the index is out of bounds. -/
def getPxChecked (img : Image) (y x : ℕ) : Option Pixel :=
  if y < HEIGHT ∧ x < WIDTH then some (img y x) else none

/-- The loop body of `draw_triangle` with every buffer store bounds-checked. -/
def drawPixelChecked (a b c : ScreenCoord) (img : Image) (y x : ℕ) : Option Image :=
  let screen_coord := image_to_screen_coord ⟨x, y⟩
  let s := triangle_sign a b c screen_coord
  if s < -pixel_width then setPxChecked img y x (255, 255, 255)
  else if s < 0 + pixel_width then
    let intensity := (128 + u8OfF64 (s * 128)) % 256
    setPxChecked img y x (intensity, intensity, intensity)
  else some img

/-- `draw_triangle` with every buffer store bounds-checked; `none` if any
iteration would index out of bounds. -/
def draw_triangleChecked (a b c : ScreenCoord) (img : Image) : Option Image :=
  (List.range HEIGHT).foldl
    (fun oim y => oim.bind fun im =>
      (List.range WIDTH).foldl
        (fun oim2 x => oim2.bind fun im2 => drawPixelChecked a b c im2 y x)
        (some im))
    (some img)

/-- The serialization pass with every buffer load bounds-checked; `none` if
any read would index out of bounds. -/
def write_ppm_bytesChecked (img : Image) : Option (List ℕ) :=
  (List.range HEIGHT).foldl
    (fun oacc y => oacc.bind fun acc =>
      (List.range WIDTH).foldl
        (fun oacc2 x => oacc2.bind fun acc2 =>
          (getPxChecked img y x).map fun p => acc2 ++ pixelBytes p)
        (some acc))
    (some headerBytes)

/-- Modelled from the spec: the edge value `f(u) = (u - A) . n` with
`n = (-(B.y-A.y), B.x-A.x) / |B-A|`, written exactly as the spec phrases it
(`|B-A|` the Euclidean norm). -/
def edgeSpec (A B u : ScreenCoord) : ℝ :=
  let normAB := Real.sqrt ((B.x - A.x) ^ 2 + (B.y - A.y) ^ 2)
  (u.x - A.x) * (-(B.y - A.y) / normAB) + (u.y - A.y) * ((B.x - A.x) / normAB)

/-- The infinite line through `A` and `B` (parametrized). -/
def lineThrough (A B : ScreenCoord) : Set ScreenCoord :=
  {p | ∃ s : ℝ, p.x = A.x + s * (B.x - A.x) ∧ p.y = A.y + s * (B.y - A.y)}

/-- Euclidean distance between two plane points. -/
def euclDist (p q : ScreenCoord) : ℝ :=
  Real.sqrt ((p.x - q.x) ^ 2 + (p.y - q.y) ^ 2)

/-- `d` is the Euclidean distance from `u` to the infinite line through
`A`, `B`: it is a lower bound on the distance to every point of the line,
and it is attained. -/
def IsLineDist (A B u : ScreenCoord) (d : ℝ) : Prop :=
  (∀ p ∈ lineThrough A B, d ≤ euclDist u p) ∧ ∃ p ∈ lineThrough A B, euclDist u p = d

/-- Modelled from the spec: the linear interpolation across the anti-aliasing
band, from full coverage (`255`) at `-pixel_width` to no coverage (`0`) at
`+pixel_width`. -/
def bandInterp (s : ℝ) : ℝ := 255 * (pixel_width - s) / (2 * pixel_width)

/-- A buffer is grayscale when every pixel has three equal channels. -/
def Grayscale (img : Image) : Prop := ∀ y x : ℕ, ∃ v : ℕ, img y x = (v, v, v)

/-- IEEE-754 `f64` values up to rounding: NaN, the two infinities, or a
finite real.  The two signed zeros are conflated into `fin 0`; in this
program the only division whose denominator can be zero also has a zero
numerator, which gives NaN for either sign of zero. -/
inductive FR where
  | nan : FR
  | pinf : FR
  | ninf : FR
  | fin : ℝ → FR

/-- IEEE negation. -/
def FR.neg : FR → FR
  | .nan => .nan
  | .pinf => .ninf
  | .ninf => .pinf
  | .fin r => .fin (-r)

/-- IEEE addition (NaN propagates; opposite infinities give NaN). -/
def FR.add : FR → FR → FR
  | .nan, _ => .nan
  | _, .nan => .nan
  | .pinf, .ninf => .nan
  | .ninf, .pinf => .nan
  | .pinf, _ => .pinf
  | _, .pinf => .pinf
  | .ninf, _ => .ninf
  | _, .ninf => .ninf
  | .fin a, .fin b => .fin (a + b)

/-- IEEE subtraction. -/
def FR.sub : FR → FR → FR
  | .nan, _ => .nan
  | _, .nan => .nan
  | .pinf, .pinf => .nan
  | .ninf, .ninf => .nan
  | .pinf, _ => .pinf
  | _, .pinf => .ninf
  | .ninf, _ => .ninf
  | _, .ninf => .pinf
  | .fin a, .fin b => .fin (a - b)

/-- IEEE multiplication (zero times infinity gives NaN). -/
def FR.mul : FR → FR → FR
  | .nan, _ => .nan
  | _, .nan => .nan
  | .pinf, .pinf => .pinf
  | .pinf, .ninf => .ninf
  | .ninf, .pinf => .ninf
  | .ninf, .ninf => .pinf
  | .pinf, .fin r => if r = 0 then .nan else if 0 < r then .pinf else .ninf
  | .fin r, .pinf => if r = 0 then .nan else if 0 < r then .pinf else .ninf
  | .ninf, .fin r => if r = 0 then .nan else if 0 < r then .ninf else .pinf
  | .fin r, .ninf => if r = 0 then .nan else if 0 < r then .ninf else .pinf
  | .fin a, .fin b => .fin (a * b)

/-- IEEE division (`0/0` gives NaN, infinity over infinity gives NaN). -/
def FR.div : FR → FR → FR
  | .nan, _ => .nan
  | _, .nan => .nan
  | .pinf, .pinf => .nan
  | .pinf, .ninf => .nan
  | .ninf, .pinf => .nan
  | .ninf, .ninf => .nan
  | .pinf, .fin r => if 0 ≤ r then .pinf else .ninf
  | .ninf, .fin r => if 0 ≤ r then .ninf else .pinf
  | .fin _, .pinf => .fin 0
  | .fin _, .ninf => .fin 0
  | .fin a, .fin b =>
      if b = 0 then (if a = 0 then .nan else if 0 < a then .pinf else .ninf) else .fin (a / b)

/-- IEEE square root (NaN on negative input). -/
def FR.sqrt : FR → FR
  | .nan => .nan
  | .pinf => .pinf
  | .ninf => .nan
  | .fin r => if r < 0 then .nan else .fin (Real.sqrt r)

/-- Rust's `f64::min`: a NaN operand is ignored. -/
def FR.min : FR → FR → FR
  | .nan, b => b
  | a, .nan => a
  | .ninf, _ => .ninf
  | _, .ninf => .ninf
  | .pinf, b => b
  | a, .pinf => a
  | .fin a, .fin b => .fin (Min.min a b)

/-- IEEE `<`: false whenever an operand is NaN. -/
def FR.lt : FR → FR → Prop
  | .nan, _ => False
  | _, .nan => False
  | .ninf, .ninf => False
  | .ninf, _ => True
  | _, .ninf => False
  | .pinf, _ => False
  | .fin _, .pinf => True
  | .fin a, .fin b => a < b

/-- Rust's `f64 as u8`: NaN to 0, saturation at the ends. -/
def u8OfF64F : FR → ℕ
  | .nan => 0
  | .pinf => 255
  | .ninf => 0
  | .fin r => u8OfF64 r

/-- `pixel_width` computed in the `FR` model. -/
def pixel_widthF : FR :=
  FR.div (.fin 1) (FR.sqrt (.fin ((HEIGHT * HEIGHT + WIDTH * WIDTH : ℕ) : ℝ)))

/-- `get_line_eq` computed in the `FR` model: for a degenerate edge
(`a = b`) the norm is zero and the normal components are `0/0 = NaN`. -/
def get_line_eqF (a b : ScreenCoord) : ScreenCoord → FR :=
  let tx := FR.sub (.fin b.x) (.fin a.x)
  let ty := FR.sub (.fin b.y) (.fin a.y)
  let t_norm := FR.sqrt (FR.add (FR.mul tx tx) (FR.mul ty ty))
  let nx := FR.div (FR.neg ty) t_norm
  let ny := FR.div tx t_norm
  fun u =>
    FR.add (FR.mul (FR.sub (.fin u.x) (.fin a.x)) nx)
      (FR.mul (FR.sub (.fin u.y) (.fin a.y)) ny)

/-- `ab_sign.min(bc_sign).min(ca_sign)` in the `FR` model. -/
def triangle_signF (a b c u : ScreenCoord) : FR :=
  FR.min (FR.min (get_line_eqF a b u) (get_line_eqF b c u)) (get_line_eqF c a u)

/-- The loop body of `draw_triangle` in the `FR` model. -/
def drawPixelF (a b c : ScreenCoord) (img : Image) (y x : ℕ) : Image :=
  let s := triangle_signF a b c (image_to_screen_coord ⟨x, y⟩)
  if FR.lt s (FR.neg pixel_widthF) then setPx img y x (255, 255, 255)
  else if FR.lt s (FR.add (.fin 0) pixel_widthF) then
    let intensity := (128 + u8OfF64F (FR.mul s (.fin 128))) % 256
    setPx img y x (intensity, intensity, intensity)
  else img

end

/-! ## Generic list lemmas -/

theorem foldl_append_eq {α : Type} (g : α → List ℕ) (l : List α) :
    ∀ acc : List ℕ,
      l.foldl (fun A a => A ++ g a) acc = acc ++ l.foldr (fun a r => g a ++ r) [] := by
  induction l with
  | nil => intro acc; simp
  | cons a l ih => intro acc; simp only [List.foldl_cons, List.foldr_cons, ih, List.append_assoc]

theorem foldr_append_length {α : Type} (g : α → List ℕ) (k : ℕ) (hg : ∀ a, (g a).length = k)
    (l : List α) : (l.foldr (fun a r => g a ++ r) []).length = k * l.length := by
  induction l with
  | nil => simp
  | cons a l ih => simp [List.length_append, hg, ih, Nat.mul_succ]; omega

theorem foldl_bind_eq {σ α : Type} (f : σ → α → σ) (g : σ → α → Option σ) (l : List α)
    (h : ∀ s a, a ∈ l → g s a = some (f s a)) :
    ∀ s : σ, l.foldl (fun os a => os.bind fun s2 => g s2 a) (some s) = some (l.foldl f s) := by
  induction l with
  | nil => intro s; rfl
  | cons a l ih =>
    intro s
    simp only [List.foldl_cons, Option.some_bind, h s a (List.mem_cons_self a l)]
    exact ih (fun s2 a2 ha => h s2 a2 (List.mem_cons_of_mem _ ha)) (f s a)

theorem foldl_preserve {σ α : Type} (P : σ → Prop) (f : σ → α → σ)
    (h : ∀ s a, P s → P (f s a)) (l : List α) :
    ∀ s : σ, P s → P (l.foldl f s) := by
  induction l with
  | nil => intro s hs; exact hs
  | cons a l ih => intro s hs; exact ih _ (h s a hs)

/-! ## Basic evaluation lemmas -/

theorem width_sub_one_real : ((WIDTH - 1 : ℕ) : ℝ) = 202 := by norm_num [WIDTH]

theorem height_sub_one_real : ((HEIGHT - 1 : ℕ) : ℝ) = 202 := by norm_num [HEIGHT]

theorem usizeOfF64_eval (r : ℝ) (n : ℕ) (h : r = (n : ℝ)) : usizeOfF64 r = n := by
  rw [usizeOfF64, h, Int.floor_natCast, Int.toNat_natCast]

/-- C5: `screen_to_image_coord` maps `(1,1)` to `(WIDTH-1, HEIGHT-1)`,
`(-1,-1)` to `(0,0)`, and `(0,0)` to `((WIDTH-1)/2, (HEIGHT-1)/2)` with
truncating integer division. -/
theorem C5_screen_to_image_corners :
    screen_to_image_coord ⟨1, 1⟩ = ⟨WIDTH - 1, HEIGHT - 1⟩ ∧
    screen_to_image_coord ⟨-1, -1⟩ = ⟨0, 0⟩ ∧
    screen_to_image_coord ⟨0, 0⟩ = ⟨(WIDTH - 1) / 2, (HEIGHT - 1) / 2⟩ := by
  refine ⟨?_, ?_, ?_⟩ <;>
    · rw [screen_to_image_coord]
      rw [width_sub_one_real, height_sub_one_real]
      congr 1 <;>
        first
        | exact usizeOfF64_eval _ 202 (by norm_num)
        | exact usizeOfF64_eval _ 0 (by norm_num)
        | exact usizeOfF64_eval _ 101 (by norm_num)

/-- C4: for each of the four domain corners `c`, the round trip
`image_to_screen_coord (screen_to_image_coord c) = c` holds exactly. -/
theorem C4_corner_roundtrip :
    image_to_screen_coord (screen_to_image_coord ⟨-1, -1⟩) = ⟨-1, -1⟩ ∧
    image_to_screen_coord (screen_to_image_coord ⟨-1, 1⟩) = ⟨-1, 1⟩ ∧
    image_to_screen_coord (screen_to_image_coord ⟨1, -1⟩) = ⟨1, -1⟩ ∧
    image_to_screen_coord (screen_to_image_coord ⟨1, 1⟩) = ⟨1, 1⟩ := by
  have h0 : usizeOfF64 ((-1 + 1) * ((WIDTH - 1 : ℕ) : ℝ) / 2) = 0 := by
    rw [width_sub_one_real]; exact usizeOfF64_eval _ 0 (by norm_num)
  have h2 : usizeOfF64 ((1 + 1) * ((WIDTH - 1 : ℕ) : ℝ) / 2) = 202 := by
    rw [width_sub_one_real]; exact usizeOfF64_eval _ 202 (by norm_num)
  have h0h : usizeOfF64 ((-1 + 1) * ((HEIGHT - 1 : ℕ) : ℝ) / 2) = 0 := by
    rw [height_sub_one_real]; exact usizeOfF64_eval _ 0 (by norm_num)
  have h2h : usizeOfF64 ((1 + 1) * ((HEIGHT - 1 : ℕ) : ℝ) / 2) = 202 := by
    rw [height_sub_one_real]; exact usizeOfF64_eval _ 202 (by norm_num)
  refine ⟨?_, ?_, ?_, ?_⟩ <;>
    · rw [screen_to_image_coord, image_to_screen_coord]
      simp only [h0, h2, h0h, h2h]
      rw [width_sub_one_real, height_sub_one_real]
      ext <;> norm_num

/-! ## Serializer -/

theorem write_ppm_bytes_decomp (img : Image) :
    write_ppm_bytes img = headerBytes ++ bodyBytes img := by
  have hin : ∀ (acc : List ℕ) (y : ℕ),
      (List.range WIDTH).foldl (fun acc2 x => acc2 ++ pixelBytes (img y x)) acc
        = acc ++ rowBytes img y :=
    fun acc y => foldl_append_eq _ _ acc
  rw [write_ppm_bytes]
  have : ((fun acc y => (List.range WIDTH).foldl (fun acc2 x => acc2 ++ pixelBytes (img y x)) acc)
      : List ℕ → ℕ → List ℕ) = fun acc y => acc ++ rowBytes img y := by
    funext acc y; exact hin acc y
  rw [this, foldl_append_eq (fun y => rowBytes img y) (List.range HEIGHT) headerBytes, bodyBytes]

theorem rowBytes_length (img : Image) (y : ℕ) : (rowBytes img y).length = 3 * WIDTH := by
  rw [rowBytes, foldr_append_length (fun x => pixelBytes (img y x)) 3 (fun _ => rfl)]
  simp

theorem bodyBytes_length (img : Image) : (bodyBytes img).length = 3 * WIDTH * HEIGHT := by
  rw [bodyBytes, foldr_append_length (fun y => rowBytes img y) (3 * WIDTH) (rowBytes_length img)]
  simp [Nat.mul_assoc]

theorem headerBytes_eval :
    headerBytes = [80, 54, 10, 50, 48, 51, 32, 50, 48, 51, 10, 50, 53, 53, 10] := by
  decide

/-- C3: the byte stream of `write_ppm` for the 203 by 203 buffer is exactly
the ASCII header bytes of `"P6\n203 203\n255\n"`, followed by the channel
bytes in row-major order, with total length `header_length + WIDTH*HEIGHT*3`. -/
theorem C3_ppm_stream (img : Image) :
    write_ppm_bytes img = headerBytes ++ bodyBytes img ∧
    headerBytes = [80, 54, 10, 50, 48, 51, 32, 50, 48, 51, 10, 50, 53, 53, 10] ∧
    (write_ppm_bytes img).length = headerBytes.length + WIDTH * HEIGHT * 3 := by
  refine ⟨write_ppm_bytes_decomp img, headerBytes_eval, ?_⟩
  rw [write_ppm_bytes_decomp img, List.length_append, bodyBytes_length img]
  have : (3 : ℕ) * WIDTH * HEIGHT = WIDTH * HEIGHT * 3 := by ring
  rw [this]

/-! ## Bounds-checked refinement -/

theorem drawPixelChecked_eq (a b c : ScreenCoord) (img : Image) (y x : ℕ)
    (hy : y < HEIGHT) (hx : x < WIDTH) :
    drawPixelChecked a b c img y x = some (drawPixel a b c img y x) := by
  rw [drawPixelChecked, drawPixel]
  split_ifs <;> simp [setPxChecked, hy, hx]

theorem draw_triangleChecked_eq (a b c : ScreenCoord) (img : Image) :
    draw_triangleChecked a b c img = some (draw_triangle a b c img) := by
  rw [draw_triangleChecked, draw_triangle]
  refine foldl_bind_eq _ _ _ (fun im y hy => ?_) img
  exact foldl_bind_eq _ _ _
    (fun im2 x hx =>
      drawPixelChecked_eq a b c im2 y x (List.mem_range.1 hy) (List.mem_range.1 hx)) im

theorem write_ppm_bytesChecked_eq (img : Image) :
    write_ppm_bytesChecked img = some (write_ppm_bytes img) := by
  rw [write_ppm_bytesChecked, write_ppm_bytes]
  refine foldl_bind_eq _ _ _ (fun acc y hy => ?_) headerBytes
  refine foldl_bind_eq _ _ _ (fun acc2 x hx => ?_) acc
  rw [getPxChecked, if_pos ⟨List.mem_range.1 hy, List.mem_range.1 hx⟩]
  rfl

/-- C9: every buffer index used by the rasterization loop of `draw_triangle`
and by the serialization pass satisfies `x < WIDTH` and `y < HEIGHT`: the
bounds-checked variants, whose out-of-bounds branch returns `none`, always
return `some` of the unchecked result. -/
theorem C9_indices_in_bounds (a b c : ScreenCoord) (img : Image) :
    draw_triangleChecked a b c img = some (draw_triangle a b c img) ∧
    write_ppm_bytesChecked img = some (write_ppm_bytes img) :=
  ⟨draw_triangleChecked_eq a b c img, write_ppm_bytesChecked_eq img⟩

/-! ## Grayscale invariant -/

theorem drawPixel_grayscale (a b c : ScreenCoord) (img : Image) (y x : ℕ)
    (h : Grayscale img) : Grayscale (drawPixel a b c img y x) := by
  intro y' x'
  simp only [drawPixel]
  split_ifs with h1 h2
  · by_cases hp : y' = y ∧ x' = x
    · exact ⟨255, by simp [setPx, hp]⟩
    · obtain ⟨v, hv⟩ := h y' x'
      exact ⟨v, by simp [setPx, hp, hv]⟩
  · by_cases hp : y' = y ∧ x' = x
    · exact ⟨(128 + u8OfF64 (triangle_sign a b c (image_to_screen_coord ⟨x, y⟩) * 128)) % 256,
        by simp [setPx, hp]⟩
    · obtain ⟨v, hv⟩ := h y' x'
      exact ⟨v, by simp [setPx, hp, hv]⟩
  · exact h y' x'

/-- C10: every pixel ever stored is grayscale: the initial buffer is all
`(0,0,0)`, each loop iteration preserves grayscale-ness (it writes only
`(255,255,255)` or `(i,i,i)`), and hence so does the whole of
`draw_triangle`. -/
theorem C10_grayscale_invariant :
    Grayscale zeroImage ∧
    (∀ (a b c : ScreenCoord) (img : Image) (y x : ℕ),
      Grayscale img → Grayscale (drawPixel a b c img y x)) ∧
    (∀ (a b c : ScreenCoord) (img : Image),
      Grayscale img → Grayscale (draw_triangle a b c img)) := by
  refine ⟨fun _ _ => ⟨0, rfl⟩, drawPixel_grayscale, fun a b c img h => ?_⟩
  rw [draw_triangle]
  refine foldl_preserve Grayscale _ (fun im y him => ?_) _ img h
  exact foldl_preserve Grayscale _ (fun im2 x him2 => drawPixel_grayscale a b c im2 y x him2) _ im him

/-- Witness for C10 at a concrete input: the zero buffer is grayscale, and so
is the result of `main`'s `draw_triangle` call on it. -/
theorem C10_grayscale_invariant_witness :
    Grayscale zeroImage ∧ Grayscale (draw_triangle mainA mainB mainC zeroImage) :=
  ⟨fun _ _ => ⟨0, rfl⟩,
    C10_grayscale_invariant.2.2 mainA mainB mainC zeroImage (fun _ _ => ⟨0, rfl⟩)⟩

/-! ## Pointwise characterization of the rasterization loop -/

theorem drawPixel_get (a b c : ScreenCoord) (img : Image) (y x y' x' : ℕ) :
    drawPixel a b c img y x y' x'
      = if y' = y ∧ x' = x then pointValue a b c x y (img y x) else img y' x' := by
  by_cases hp : y' = y ∧ x' = x
  · obtain ⟨hy, hx⟩ := hp
    subst hy; subst hx
    rw [if_pos ⟨rfl, rfl⟩]
    simp only [drawPixel, pointValue]
    split_ifs <;> simp [setPx]
  · simp only [drawPixel, pointValue]
    rw [if_neg hp]
    split_ifs <;> simp [setPx, hp]

theorem innerFold_get (a b c : ScreenCoord) (y : ℕ) (xs : List ℕ) :
    ∀ (_ : xs.Nodup) (img : Image) (y' x' : ℕ),
      (xs.foldl (fun im x => drawPixel a b c im y x) img) y' x'
        = if y' = y ∧ x' ∈ xs then pointValue a b c x' y (img y' x') else img y' x' := by
  induction xs with
  | nil => intro _ img y' x'; simp
  | cons x xs ih =>
    intro hnd img y' x'
    obtain ⟨hx, hnd'⟩ := List.nodup_cons.1 hnd
    rw [List.foldl_cons, ih hnd' _ y' x', drawPixel_get]
    by_cases hy : y' = y
    · by_cases hmem : x' ∈ xs
      · have hxx : ¬x' = x := fun e => hx (e ▸ hmem)
        simp [hy, hmem, hxx, List.mem_cons]
      · by_cases hxx : x' = x
        · simp [hy, hmem, hxx, hx, List.mem_cons]
        · simp [hy, hmem, hxx, List.mem_cons]
    · simp [hy]

theorem outerFold_get (a b c : ScreenCoord) (ys : List ℕ) :
    ∀ (_ : ys.Nodup) (img : Image) (y' x' : ℕ),
      (ys.foldl
          (fun im y => (List.range WIDTH).foldl (fun im2 x => drawPixel a b c im2 y x) im)
          img) y' x'
        = if y' ∈ ys ∧ x' < WIDTH then pointValue a b c x' y' (img y' x') else img y' x' := by
  induction ys with
  | nil => intro _ img y' x'; simp
  | cons y ys ih =>
    intro hnd img y' x'
    obtain ⟨hy, hnd'⟩ := List.nodup_cons.1 hnd
    rw [List.foldl_cons, ih hnd']
    have hin : ∀ (im : Image) (yy xx : ℕ),
        ((List.range WIDTH).foldl (fun im2 x => drawPixel a b c im2 y x) im) yy xx
          = if yy = y ∧ xx ∈ List.range WIDTH then pointValue a b c xx y (im yy xx) else im yy xx :=
      fun im yy xx => innerFold_get a b c y (List.range WIDTH) (List.nodup_range _) im yy xx
    rw [hin]
    by_cases hy' : y' = y
    · have hmem : ¬y' ∈ ys := fun e => hy (hy' ▸ e)
      by_cases hx' : x' < WIDTH
      · simp [hy', hmem, hx', hy, List.mem_range, List.mem_cons]
      · simp [hy', hmem, hx', hy, List.mem_range, List.mem_cons]
    · by_cases hmem : y' ∈ ys
      · by_cases hx' : x' < WIDTH
        · simp [hy', hmem, hx', List.mem_range, List.mem_cons]
        · simp [hy', hmem, hx', List.mem_range, List.mem_cons]
      · simp [hy', hmem]

theorem draw_triangle_get (a b c : ScreenCoord) (img : Image) (y x : ℕ) :
    draw_triangle a b c img y x
      = if y < HEIGHT ∧ x < WIDTH then pointValue a b c x y (img y x) else img y x := by
  rw [draw_triangle, outerFold_get a b c (List.range HEIGHT) (List.nodup_range _) img y x]
  simp [List.mem_range]

theorem pixel_width_pos : 0 < pixel_width := by
  have h : ((HEIGHT * HEIGHT + WIDTH * WIDTH : ℕ) : ℝ) = 82418 := by norm_num [WIDTH, HEIGHT]
  rw [pixel_width, h]
  positivity

/-- C6: `draw_triangle` leaves every pixel whose coverage value is at least
`+pixel_width` unchanged, for every initial buffer. -/
theorem C6_outside_pixels_unchanged (a b c : ScreenCoord) (img : Image) (x y : ℕ)
    (hx : x < WIDTH) (hy : y < HEIGHT)
    (h : pixel_width ≤ triangle_sign a b c (image_to_screen_coord ⟨x, y⟩)) :
    draw_triangle a b c img y x = img y x := by
  rw [draw_triangle_get, if_pos ⟨hy, hx⟩, pointValue]
  have h1 : ¬triangle_sign a b c (image_to_screen_coord ⟨x, y⟩) < -pixel_width :=
    not_lt.2 (le_trans (le_trans (neg_nonpos.2 pixel_width_pos.le)
      (le_of_lt pixel_width_pos)) h)
  have h2 : ¬triangle_sign a b c (image_to_screen_coord ⟨x, y⟩) < 0 + pixel_width :=
    not_lt.2 (by rw [zero_add]; exact h)
  rw [if_neg h1, if_neg h2]

/-! ## Numeric bounds -/

theorem sqrt_le_of_sq_le (a b : ℝ) (hb : 0 ≤ b) (h : a ≤ b ^ 2) : Real.sqrt a ≤ b := by
  calc Real.sqrt a ≤ Real.sqrt (b ^ 2) := Real.sqrt_le_sqrt h
  _ = b := Real.sqrt_sq hb

theorem le_sqrt_of_sq_le (a b : ℝ) (ha : 0 ≤ a) (h : a ^ 2 ≤ b) : a ≤ Real.sqrt b := by
  calc a = Real.sqrt (a ^ 2) := (Real.sqrt_sq ha).symm
  _ ≤ Real.sqrt b := Real.sqrt_le_sqrt h

theorem pixel_width_eq : pixel_width = 1 / Real.sqrt 82418 := by
  rw [pixel_width]
  norm_num [WIDTH, HEIGHT]

theorem pixel_width_le : pixel_width ≤ 1 / 287 := by
  rw [pixel_width_eq]
  have hs : (287 : ℝ) ≤ Real.sqrt 82418 := le_sqrt_of_sq_le _ _ (by norm_num) (by norm_num)
  have hpos : (0 : ℝ) < Real.sqrt 82418 := lt_of_lt_of_le (by norm_num) hs
  rw [div_le_div_iff hpos (by norm_num : (0:ℝ) < 287)]
  nlinarith

theorem pixel_width_ge : 1 / 288 ≤ pixel_width := by
  rw [pixel_width_eq]
  have hs : Real.sqrt 82418 ≤ 288 := sqrt_le_of_sq_le _ _ (by norm_num) (by norm_num)
  have hpos : (0 : ℝ) < Real.sqrt 82418 := Real.sqrt_pos.2 (by norm_num)
  rw [div_le_div_iff (by norm_num : (0:ℝ) < 288) hpos]
  nlinarith

/-- Closed form of the edge closure: cross product over the norm. -/
theorem get_line_eq_apply (a b u : ScreenCoord) :
    get_line_eq a b u
      = ((u.y - a.y) * (b.x - a.x) - (u.x - a.x) * (b.y - a.y))
        / Real.sqrt ((b.x - a.x) * (b.x - a.x) + (b.y - a.y) * (b.y - a.y)) := by
  rw [get_line_eq]
  ring

theorem triangle_sign_eq (a b c u : ScreenCoord) :
    triangle_sign a b c u
      = min (min (get_line_eq a b u) (get_line_eq b c u)) (get_line_eq c a u) := rfl

/-! ## Main's triangle: concrete edge values -/

theorem i2s_101 : image_to_screen_coord ⟨101, 101⟩ = ⟨0, 0⟩ := by
  rw [image_to_screen_coord, width_sub_one_real, height_sub_one_real]
  ext <;> norm_num

theorem i2s_00 : image_to_screen_coord ⟨0, 0⟩ = ⟨-1, -1⟩ := by
  rw [image_to_screen_coord, width_sub_one_real, height_sub_one_real]
  ext <;> norm_num

theorem lineq_ab_center : get_line_eq mainA mainB ⟨0, 0⟩ = (1 / 4) / Real.sqrt (1 / 2) := by
  rw [get_line_eq_apply]
  norm_num [mainA, mainB]

theorem lineq_bc_center : get_line_eq mainB mainC ⟨0, 0⟩ = (1 / 4) / Real.sqrt (5 / 4) := by
  rw [get_line_eq_apply]
  norm_num [mainB, mainC]

theorem lineq_ca_center : get_line_eq mainC mainA ⟨0, 0⟩ = (1 / 4) / Real.sqrt (5 / 4) := by
  rw [get_line_eq_apply]
  norm_num [mainC, mainA]

theorem lineq_ca_corner : get_line_eq mainC mainA ⟨-1, -1⟩ = -(5 / 4) / Real.sqrt (5 / 4) := by
  rw [get_line_eq_apply]
  norm_num [mainC, mainA]

theorem main_center_sign_ge :
    pixel_width ≤ triangle_sign mainA mainB mainC (image_to_screen_coord ⟨101, 101⟩) := by
  rw [i2s_101, triangle_sign_eq, lineq_ab_center, lineq_bc_center, lineq_ca_center]
  have hhalf : Real.sqrt (1 / 2) ≤ 1 := sqrt_le_of_sq_le _ _ (by norm_num) (by norm_num)
  have hhalfpos : (0 : ℝ) < Real.sqrt (1 / 2) := Real.sqrt_pos.2 (by norm_num)
  have h54 : Real.sqrt (5 / 4) ≤ 6 / 5 := sqrt_le_of_sq_le _ _ (by norm_num) (by norm_num)
  have h54pos : (0 : ℝ) < Real.sqrt (5 / 4) := Real.sqrt_pos.2 (by norm_num)
  have h1 : pixel_width ≤ (1 / 4) / Real.sqrt (1 / 2) := by
    refine le_trans pixel_width_le (le_trans (by norm_num : (1:ℝ)/287 ≤ (1/4)/1) ?_)
    exact div_le_div_of_nonneg_left (by norm_num) hhalfpos hhalf
  have h2 : pixel_width ≤ (1 / 4) / Real.sqrt (5 / 4) := by
    refine le_trans pixel_width_le (le_trans (by norm_num : (1:ℝ)/287 ≤ (1/4)/(6/5)) ?_)
    exact div_le_div_of_nonneg_left (by norm_num) h54pos h54
  exact le_min (le_min h1 h2) h2

theorem main_corner_sign_lt :
    triangle_sign mainA mainB mainC (image_to_screen_coord ⟨0, 0⟩) < -pixel_width := by
  rw [i2s_00, triangle_sign_eq]
  have h54pos : (0 : ℝ) < Real.sqrt (5 / 4) := Real.sqrt_pos.2 (by norm_num)
  have h54 : Real.sqrt (5 / 4) ≤ 5 / 4 := sqrt_le_of_sq_le _ _ (by norm_num) (by norm_num)
  have hca : get_line_eq mainC mainA ⟨-1, -1⟩ ≤ -1 := by
    rw [lineq_ca_corner, div_le_iff h54pos]
    nlinarith
  refine lt_of_le_of_lt (min_le_right _ _) (lt_of_le_of_lt hca ?_)
  have := pixel_width_le
  linarith

/-- Witness for C6 at a concrete input: the pixel nearest the centroid of
`main`'s triangle has coverage at least `pixel_width` and is left unchanged. -/
theorem C6_outside_pixels_unchanged_witness :
    101 < WIDTH ∧ 101 < HEIGHT ∧
    pixel_width ≤ triangle_sign mainA mainB mainC (image_to_screen_coord ⟨101, 101⟩) ∧
    draw_triangle mainA mainB mainC zeroImage 101 101 = zeroImage 101 101 :=
  ⟨by norm_num [WIDTH], by norm_num [HEIGHT], main_center_sign_ge,
    C6_outside_pixels_unchanged mainA mainB mainC zeroImage 101 101
      (by norm_num [WIDTH]) (by norm_num [HEIGHT]) main_center_sign_ge⟩

/-- C7 counterexample: in the buffer `main` produces, the pixel nearest the
triangle's centroid (image coordinate `(101, 101)`, the image of the centroid
`(0,0)`) still holds the background value `(0,0,0)`, contradicting the claim
that it holds a non-background color. -/
theorem C7_centroid_counterexample :
    draw_triangle mainA mainB mainC zeroImage 101 101 = (0, 0, 0) := by
  rw [draw_triangle_get,
    if_pos ⟨by norm_num [HEIGHT], by norm_num [WIDTH]⟩]
  simp only [pointValue]
  have h := main_center_sign_ge
  have h1 : ¬triangle_sign mainA mainB mainC (image_to_screen_coord ⟨101, 101⟩) < -pixel_width :=
    not_lt.2 (le_trans (by linarith [pixel_width_pos]) h)
  have h2 : ¬triangle_sign mainA mainB mainC (image_to_screen_coord ⟨101, 101⟩)
      < 0 + pixel_width := not_lt.2 (by rw [zero_add]; exact h)
  rw [if_neg h1, if_neg h2]
  rfl

/-- C7 amended: `main`'s triangle is wound so that its interior gets positive
edge values, so the code paints the exterior: the pixel nearest the centroid
keeps the background `(0,0,0)`, while a pixel far outside the triangle's
bounding region (the corner, image coordinate `(0,0)`) is written full white. -/
theorem C7_exterior_amended :
    screen_to_image_coord ⟨0, 0⟩ = ⟨101, 101⟩ ∧
    draw_triangle mainA mainB mainC zeroImage 101 101 = (0, 0, 0) ∧
    draw_triangle mainA mainB mainC zeroImage 0 0 = (255, 255, 255) := by
  refine ⟨?_, ?_, ?_⟩
  · rw [screen_to_image_coord, width_sub_one_real, height_sub_one_real]
    ext <;> exact usizeOfF64_eval _ 101 (by norm_num)
  · rw [draw_triangle_get, if_pos ⟨by norm_num [HEIGHT], by norm_num [WIDTH]⟩]
    simp only [pointValue]
    have h := main_center_sign_ge
    have h1 : ¬triangle_sign mainA mainB mainC (image_to_screen_coord ⟨101, 101⟩)
        < -pixel_width := not_lt.2 (le_trans (by linarith [pixel_width_pos]) h)
    have h2 : ¬triangle_sign mainA mainB mainC (image_to_screen_coord ⟨101, 101⟩)
        < 0 + pixel_width := not_lt.2 (by rw [zero_add]; exact h)
    rw [if_neg h1, if_neg h2]
    rfl
  · rw [draw_triangle_get, if_pos ⟨by norm_num [HEIGHT], by norm_num [WIDTH]⟩]
    simp only [pointValue]
    rw [if_pos main_corner_sign_lt]

/-! ## The anti-aliasing band (C2) -/

theorem sqrt25 : Real.sqrt 25 = 5 := by
  rw [show (25 : ℝ) = 5 ^ 2 by norm_num, Real.sqrt_sq (by norm_num)]

theorem lineq_ab_band : get_line_eq bandA bandB ⟨0, 0⟩ = -(1 / 500) := by
  rw [get_line_eq_apply]
  norm_num [bandA, bandB, sqrt25]

theorem lineq_bc_band_nonneg : 0 ≤ get_line_eq bandB bandC ⟨0, 0⟩ := by
  rw [get_line_eq_apply]
  apply div_nonneg
  · norm_num [bandB, bandC]
  · exact Real.sqrt_nonneg _

theorem lineq_ca_band_nonneg : 0 ≤ get_line_eq bandC bandA ⟨0, 0⟩ := by
  rw [get_line_eq_apply]
  apply div_nonneg
  · norm_num [bandC, bandA]
  · exact Real.sqrt_nonneg _

theorem band_sign :
    triangle_sign bandA bandB bandC (image_to_screen_coord ⟨101, 101⟩) = -(1 / 500) := by
  rw [i2s_101, triangle_sign_eq, lineq_ab_band,
    min_eq_left (le_trans (by norm_num) lineq_bc_band_nonneg),
    min_eq_left (le_trans (by norm_num) lineq_ca_band_nonneg)]

theorem band_intensity : (128 + u8OfF64 (-(1 / 500) * 128)) % 256 = 128 := by
  have hfloor : ⌊(-(1 / 500) * 128 : ℝ)⌋ = -1 :=
    Int.floor_eq_iff.2 ⟨by norm_num, by norm_num⟩
  rw [u8OfF64, hfloor]
  decide

/-- C2 counterexample: for the `band` triangle and pixel `(101, 101)`, the
coverage value is `-1/500`, inside the band `[-pixel_width, pixel_width)`,
and the code stores intensity `128`; but the linear interpolation across the
band exceeds `129` there, so no rounding of it equals the stored value: the
stored intensity does not interpolate linearly across the band. -/
theorem C2_band_counterexample :
    -pixel_width ≤ triangle_sign bandA bandB bandC (image_to_screen_coord ⟨101, 101⟩) ∧
    triangle_sign bandA bandB bandC (image_to_screen_coord ⟨101, 101⟩) < pixel_width ∧
    draw_triangle bandA bandB bandC zeroImage 101 101 = (128, 128, 128) ∧
    129 < bandInterp (triangle_sign bandA bandB bandC (image_to_screen_coord ⟨101, 101⟩)) := by
  have hs := band_sign
  have hge := pixel_width_ge
  have hpos := pixel_width_pos
  refine ⟨by rw [hs]; linarith, by rw [hs]; linarith, ?_, ?_⟩
  · rw [draw_triangle_get, if_pos ⟨by norm_num [HEIGHT], by norm_num [WIDTH]⟩]
    simp only [pointValue]
    have h1 : ¬triangle_sign bandA bandB bandC (image_to_screen_coord ⟨101, 101⟩)
        < -pixel_width := not_lt.2 (by rw [hs]; linarith)
    have h2 : triangle_sign bandA bandB bandC (image_to_screen_coord ⟨101, 101⟩)
        < 0 + pixel_width := by rw [hs, zero_add]; linarith
    rw [if_neg h1, if_pos h2, hs, band_intensity]
  · rw [hs, bandInterp]
    have hle := pixel_width_le
    rw [lt_div_iff (by linarith : (0:ℝ) < 2 * pixel_width)]
    nlinarith

/-- C2 amended: every pixel with coverage below `-pixel_width` is written
`(255,255,255)` (this half of the claim is true), and every pixel with
coverage in the band `[-pixel_width, pixel_width)` is written the constant
intensity `128`: the code's `128 + (s * 128.0) as u8` truncates to `128 + 0`
because `|s * 128| < 1` throughout the band, so no linear interpolation
takes place. -/
theorem C2_band_amended (a b c : ScreenCoord) (img : Image) (x y : ℕ)
    (hx : x < WIDTH) (hy : y < HEIGHT) :
    (triangle_sign a b c (image_to_screen_coord ⟨x, y⟩) < -pixel_width →
      draw_triangle a b c img y x = (255, 255, 255)) ∧
    (-pixel_width ≤ triangle_sign a b c (image_to_screen_coord ⟨x, y⟩) →
      triangle_sign a b c (image_to_screen_coord ⟨x, y⟩) < pixel_width →
      draw_triangle a b c img y x = (128, 128, 128)) := by
  constructor
  · intro h
    rw [draw_triangle_get, if_pos ⟨hy, hx⟩]
    simp only [pointValue]
    rw [if_pos h]
  · intro hlo hhi
    rw [draw_triangle_get, if_pos ⟨hy, hx⟩]
    simp only [pointValue]
    rw [if_neg (not_lt.2 hlo), if_pos (by rw [zero_add]; exact hhi)]
    have hle := pixel_width_le
    have hub : (triangle_sign a b c (image_to_screen_coord ⟨x, y⟩) * 128 : ℝ) < 1 := by
      nlinarith
    have hlb : (-1 : ℝ) ≤ triangle_sign a b c (image_to_screen_coord ⟨x, y⟩) * 128 := by
      nlinarith
    have hz : u8OfF64 (triangle_sign a b c (image_to_screen_coord ⟨x, y⟩) * 128) = 0 := by
      rw [u8OfF64]
      have h1 : ⌊(triangle_sign a b c (image_to_screen_coord ⟨x, y⟩) * 128 : ℝ)⌋ < 1 :=
        Int.floor_lt.2 (by exact_mod_cast hub)
      have h2 : (-1 : ℤ) ≤ ⌊(triangle_sign a b c (image_to_screen_coord ⟨x, y⟩) * 128 : ℝ)⌋ :=
        Int.le_floor.2 (by exact_mod_cast hlb)
      omega
    rw [hz]

/-- Witness for C2's amended statement at a concrete input: the band triangle
at pixel `(101, 101)`. -/
theorem C2_band_amended_witness :
    101 < WIDTH ∧ 101 < HEIGHT ∧
    -pixel_width ≤ triangle_sign bandA bandB bandC (image_to_screen_coord ⟨101, 101⟩) ∧
    triangle_sign bandA bandB bandC (image_to_screen_coord ⟨101, 101⟩) < pixel_width ∧
    draw_triangle bandA bandB bandC zeroImage 101 101 = (128, 128, 128) := by
  have h1 : -pixel_width ≤ triangle_sign bandA bandB bandC (image_to_screen_coord ⟨101, 101⟩) := by
    rw [band_sign]; linarith [pixel_width_ge]
  have h2 : triangle_sign bandA bandB bandC (image_to_screen_coord ⟨101, 101⟩) < pixel_width := by
    rw [band_sign]; linarith [pixel_width_pos]
  exact ⟨by norm_num [WIDTH], by norm_num [HEIGHT], h1, h2,
    (C2_band_amended bandA bandB bandC zeroImage 101 101
      (by norm_num [WIDTH]) (by norm_num [HEIGHT])).2 h1 h2⟩

/-! ## The edge function: refinement to the spec's formula and the
distance-to-line property (C1) -/

theorem edgeSpec_eq (A B u : ScreenCoord) : get_line_eq A B u = edgeSpec A B u := by
  simp only [get_line_eq, edgeSpec]
  rw [show (B.x - A.x) * (B.x - A.x) + (B.y - A.y) * (B.y - A.y)
      = (B.x - A.x) ^ 2 + (B.y - A.y) ^ 2 by ring]

theorem cauchy_cross (wx wy tx ty s : ℝ) :
    (wy * tx - wx * ty) ^ 2
      ≤ ((wx - s * tx) ^ 2 + (wy - s * ty) ^ 2) * (tx * tx + ty * ty) := by
  nlinarith [sq_nonneg ((wx - s * tx) * tx + (wy - s * ty) * ty)]

theorem proj_key (wx wy tx ty : ℝ) (hq : tx * tx + ty * ty ≠ 0) :
    (wx - ((wx * tx + wy * ty) / (tx * tx + ty * ty)) * tx) ^ 2
      + (wy - ((wx * tx + wy * ty) / (tx * tx + ty * ty)) * ty) ^ 2
      = (wy * tx - wx * ty) ^ 2 / (tx * tx + ty * ty) := by
  field_simp
  ring

theorem sub_add_sub (p q z : ℝ) : p - (q + z) = (p - q) - z := by ring

theorem edge_dist (A B u : ScreenCoord) (h : A ≠ B) :
    IsLineDist A B u |get_line_eq A B u| := by
  have hne : B.x - A.x ≠ 0 ∨ B.y - A.y ≠ 0 := by
    by_contra hc
    push_neg at hc
    exact h (by ext <;> [linarith [hc.1]; linarith [hc.2]])
  have hq : 0 < (B.x - A.x) * (B.x - A.x) + (B.y - A.y) * (B.y - A.y) := by
    rcases hne with h1 | h1
    · nlinarith [mul_self_pos.2 h1, mul_self_nonneg (B.y - A.y)]
    · nlinarith [mul_self_pos.2 h1, mul_self_nonneg (B.x - A.x)]
  have hN2 : Real.sqrt ((B.x - A.x) * (B.x - A.x) + (B.y - A.y) * (B.y - A.y)) ^ 2
      = (B.x - A.x) * (B.x - A.x) + (B.y - A.y) * (B.y - A.y) := by
    rw [sq]
    exact Real.mul_self_sqrt hq.le
  have hf2 : get_line_eq A B u ^ 2
      = ((u.y - A.y) * (B.x - A.x) - (u.x - A.x) * (B.y - A.y)) ^ 2
        / ((B.x - A.x) * (B.x - A.x) + (B.y - A.y) * (B.y - A.y)) := by
    rw [get_line_eq_apply, div_pow, hN2]
  constructor
  · rintro p ⟨s, hpx, hpy⟩
    have hex : u.x - p.x = (u.x - A.x) - s * (B.x - A.x) := by rw [hpx]; ring
    have hey : u.y - p.y = (u.y - A.y) - s * (B.y - A.y) := by rw [hpy]; ring
    rw [euclDist, hex, hey]
    have hle : get_line_eq A B u ^ 2
        ≤ ((u.x - A.x) - s * (B.x - A.x)) ^ 2 + ((u.y - A.y) - s * (B.y - A.y)) ^ 2 := by
      rw [hf2, div_le_iff hq]
      exact cauchy_cross (u.x - A.x) (u.y - A.y) (B.x - A.x) (B.y - A.y) s
    calc |get_line_eq A B u| = Real.sqrt (get_line_eq A B u ^ 2) :=
          (Real.sqrt_sq_eq_abs _).symm
    _ ≤ Real.sqrt (((u.x - A.x) - s * (B.x - A.x)) ^ 2 + ((u.y - A.y) - s * (B.y - A.y)) ^ 2) :=
          Real.sqrt_le_sqrt hle
  · refine ⟨⟨A.x + (((u.x - A.x) * (B.x - A.x) + (u.y - A.y) * (B.y - A.y))
        / ((B.x - A.x) * (B.x - A.x) + (B.y - A.y) * (B.y - A.y))) * (B.x - A.x),
      A.y + (((u.x - A.x) * (B.x - A.x) + (u.y - A.y) * (B.y - A.y))
        / ((B.x - A.x) * (B.x - A.x) + (B.y - A.y) * (B.y - A.y))) * (B.y - A.y)⟩,
      ⟨_, rfl, rfl⟩, ?_⟩
    rw [euclDist, sub_add_sub, sub_add_sub,
      proj_key (u.x - A.x) (u.y - A.y) (B.x - A.x) (B.y - A.y) hq.ne', ← hf2,
      Real.sqrt_sq_eq_abs]

/-- C1: for pairwise-distinct vertices, the coverage value `draw_triangle`
computes at a point `u` is the minimum of the three directed-edge values
`f_AB(u)`, `f_BC(u)`, `f_CA(u)` in the spec's form
`f(u) = (u - A) . n`, `n = (-(B.y-A.y), B.x-A.x) / |B-A|`; and the absolute
value of each edge value is the Euclidean distance from `u` to the infinite
line through that edge's endpoints. -/
theorem C1_coverage_min_edges (a b c u : ScreenCoord)
    (hab : a ≠ b) (hbc : b ≠ c) (hca : c ≠ a) :
    triangle_sign a b c u
      = min (min (edgeSpec a b u) (edgeSpec b c u)) (edgeSpec c a u) ∧
    IsLineDist a b u |edgeSpec a b u| ∧
    IsLineDist b c u |edgeSpec b c u| ∧
    IsLineDist c a u |edgeSpec c a u| := by
  refine ⟨?_, ?_, ?_, ?_⟩
  · rw [triangle_sign_eq, edgeSpec_eq a b u, edgeSpec_eq b c u, edgeSpec_eq c a u]
  · rw [← edgeSpec_eq]
    exact edge_dist a b u hab
  · rw [← edgeSpec_eq]
    exact edge_dist b c u hbc
  · rw [← edgeSpec_eq]
    exact edge_dist c a u hca

/-- Witness for C1 at a concrete input: the unit right triangle and the
point `(2, 3)`. -/
theorem C1_coverage_min_edges_witness :
    ((⟨0, 0⟩ : ScreenCoord) ≠ ⟨1, 0⟩) ∧ ((⟨1, 0⟩ : ScreenCoord) ≠ ⟨0, 1⟩) ∧
    ((⟨0, 1⟩ : ScreenCoord) ≠ ⟨0, 0⟩) ∧
    (triangle_sign ⟨0, 0⟩ ⟨1, 0⟩ ⟨0, 1⟩ ⟨2, 3⟩
        = min (min (edgeSpec ⟨0, 0⟩ ⟨1, 0⟩ ⟨2, 3⟩) (edgeSpec ⟨1, 0⟩ ⟨0, 1⟩ ⟨2, 3⟩))
            (edgeSpec ⟨0, 1⟩ ⟨0, 0⟩ ⟨2, 3⟩) ∧
      IsLineDist ⟨0, 0⟩ ⟨1, 0⟩ ⟨2, 3⟩ |edgeSpec ⟨0, 0⟩ ⟨1, 0⟩ ⟨2, 3⟩| ∧
      IsLineDist ⟨1, 0⟩ ⟨0, 1⟩ ⟨2, 3⟩ |edgeSpec ⟨1, 0⟩ ⟨0, 1⟩ ⟨2, 3⟩| ∧
      IsLineDist ⟨0, 1⟩ ⟨0, 0⟩ ⟨2, 3⟩ |edgeSpec ⟨0, 1⟩ ⟨0, 0⟩ ⟨2, 3⟩|) := by
  have h1 : (⟨0, 0⟩ : ScreenCoord) ≠ ⟨1, 0⟩ := by
    intro h
    exact absurd (congrArg ScreenCoord.x h) (by norm_num)
  have h2 : (⟨1, 0⟩ : ScreenCoord) ≠ ⟨0, 1⟩ := by
    intro h
    exact absurd (congrArg ScreenCoord.x h) (by norm_num)
  have h3 : (⟨0, 1⟩ : ScreenCoord) ≠ ⟨0, 0⟩ := by
    intro h
    exact absurd (congrArg ScreenCoord.y h) (by norm_num)
  exact ⟨h1, h2, h3, C1_coverage_min_edges ⟨0, 0⟩ ⟨1, 0⟩ ⟨0, 1⟩ ⟨2, 3⟩ h1 h2 h3⟩

/-! ## Degenerate edges in the `FR` model (C8) -/

theorem FR.min_nan_left (b : FR) : FR.min .nan b = b := by
  cases b <;> rfl

theorem FR.min_nan_right (a : FR) : FR.min a .nan = a := by
  cases a <;> rfl

theorem FR.not_lt_nan (z : FR) : ¬FR.lt .nan z := by
  cases z <;> exact fun h => h

theorem norm_sq_pos (A B : ScreenCoord) (h : A ≠ B) :
    0 < (B.x - A.x) * (B.x - A.x) + (B.y - A.y) * (B.y - A.y) := by
  have hne : B.x - A.x ≠ 0 ∨ B.y - A.y ≠ 0 := by
    by_contra hc
    push_neg at hc
    exact h (by ext <;> [linarith [hc.1]; linarith [hc.2]])
  rcases hne with h1 | h1
  · nlinarith [mul_self_pos.2 h1, mul_self_nonneg (B.y - A.y)]
  · nlinarith [mul_self_pos.2 h1, mul_self_nonneg (B.x - A.x)]

theorem get_line_eqF_self (a u : ScreenCoord) : get_line_eqF a a u = .nan := by
  simp [get_line_eqF, FR.sub, FR.neg, FR.add, FR.mul, FR.sqrt, FR.div]

theorem get_line_eqF_fin (a b u : ScreenCoord) (h : a ≠ b) :
    get_line_eqF a b u = .fin (get_line_eq a b u) := by
  have hq : 0 < (b.x - a.x) * (b.x - a.x) + (b.y - a.y) * (b.y - a.y) := norm_sq_pos a b h
  have hnlt : ¬((b.x - a.x) * (b.x - a.x) + (b.y - a.y) * (b.y - a.y) < 0) := not_lt.2 hq.le
  have hsne : ¬(Real.sqrt ((b.x - a.x) * (b.x - a.x) + (b.y - a.y) * (b.y - a.y)) = 0) :=
    (Real.sqrt_pos.2 hq).ne'
  simp only [get_line_eqF, get_line_eq, FR.sub, FR.mul, FR.add, FR.neg, FR.sqrt, FR.div,
    if_neg hnlt, if_neg hsne]

/-- C8: a degenerate edge (two coinciding vertices) produces a NaN edge
value, which `f64::min` ignores, so the coverage is the minimum of the
remaining edge values (finite when the other vertices are distinct) — the
"no constraint" fallback, applied uniformly to whichever of the three edges
degenerates; and when the combined coverage is itself NaN (all vertices
coincide) both comparisons are false, so the pixel is not written and no
NaN-derived value reaches the buffer. -/
theorem C8_degenerate_fallback (a b c u : ScreenCoord) (img : Image) (y x : ℕ) :
    (a = b → triangle_signF a b c u
      = FR.min (get_line_eqF b c u) (get_line_eqF c a u)) ∧
    (b = c → triangle_signF a b c u
      = FR.min (get_line_eqF a b u) (get_line_eqF c a u)) ∧
    (c = a → triangle_signF a b c u
      = FR.min (get_line_eqF a b u) (get_line_eqF b c u)) ∧
    (a = b → b ≠ c → c ≠ a →
      triangle_signF a b c u = .fin (min (get_line_eq b c u) (get_line_eq c a u))) ∧
    (a = b → b = c → triangle_signF a b c u = .nan) ∧
    (triangle_signF a b c (image_to_screen_coord ⟨x, y⟩) = .nan →
      drawPixelF a b c img y x = img) := by
  refine ⟨?_, ?_, ?_, ?_, ?_, ?_⟩
  · intro hab
    subst hab
    rw [triangle_signF, get_line_eqF_self, FR.min_nan_left]
  · intro hbc
    subst hbc
    rw [triangle_signF, get_line_eqF_self, FR.min_nan_right]
  · intro hca
    subst hca
    rw [triangle_signF, get_line_eqF_self, FR.min_nan_right]
  · intro hab hbc hca
    subst hab
    rw [triangle_signF, get_line_eqF_self, FR.min_nan_left,
      get_line_eqF_fin _ _ _ hbc, get_line_eqF_fin _ _ _ hca]
    rfl
  · intro hab hbc
    subst hab
    subst hbc
    rw [triangle_signF, get_line_eqF_self, FR.min_nan_left, FR.min_nan_left]
  · intro hnan
    simp only [drawPixelF]
    split_ifs with h1 h2
    · rw [hnan] at h1
      exact absurd h1 (FR.not_lt_nan _)
    · rw [hnan] at h2
      exact absurd h2 (FR.not_lt_nan _)
    · rfl

/-- Witness for C8 at a concrete input: the degenerate triangle with
`a = b = (0,0)` and `c = (1,2)`, evaluated at `(3,4)`; and the fully
degenerate triangle `a = b = c = (0,0)`, which writes nothing at pixel
`(0,0)`. -/
theorem C8_degenerate_fallback_witness :
    ((⟨0, 0⟩ : ScreenCoord) = ⟨0, 0⟩) ∧
    (triangle_signF ⟨0, 0⟩ ⟨0, 0⟩ ⟨1, 2⟩ ⟨3, 4⟩
      = FR.min (get_line_eqF ⟨0, 0⟩ ⟨1, 2⟩ ⟨3, 4⟩) (get_line_eqF ⟨1, 2⟩ ⟨0, 0⟩ ⟨3, 4⟩)) ∧
    (triangle_signF ⟨0, 0⟩ ⟨0, 0⟩ ⟨0, 0⟩ (image_to_screen_coord ⟨0, 0⟩) = .nan ∧
      drawPixelF ⟨0, 0⟩ ⟨0, 0⟩ ⟨0, 0⟩ zeroImage 0 0 = zeroImage) := by
  have h1 := (C8_degenerate_fallback ⟨0, 0⟩ ⟨0, 0⟩ ⟨1, 2⟩ ⟨3, 4⟩ zeroImage 0 0).1 rfl
  have h2 := (C8_degenerate_fallback ⟨0, 0⟩ ⟨0, 0⟩ ⟨0, 0⟩
    (image_to_screen_coord ⟨0, 0⟩) zeroImage 0 0).2.2.2.2.1 rfl rfl
  exact ⟨rfl, h1,
    h2, (C8_degenerate_fallback ⟨0, 0⟩ ⟨0, 0⟩ ⟨0, 0⟩ (image_to_screen_coord ⟨0, 0⟩)
      zeroImage 0 0).2.2.2.2.2 h2⟩

end RustGraphics
